import Mathlib

/-!
Verification development for fmpz_mpoly_search_monomials
(src/mpoly/search_monomials.c).

The routine searches, over two strictly descending sequences of packed
monomials a (length alen) and b (length blen), for a monomial e whose
score (the number of cross products a[i] + b[j] that are at most e under
the monomial order) lies in a requested range [lower, upper], or is as
close as possible.

The packed monomial primitives (mpoly_monomial_add, mpoly_monomial_eq,
mpoly_monomial_lt) are external collaborators, assumed to give a linear
order compatible with addition.  They are modelled by an arbitrary type
M with a linear order together with an addition function, with
monotonicity of the addition stated as hypotheses where needed.

The development has two strands.

First, literal embeddings of the well-formed fragments of the source:
the candidate initialisation (lines 53-75), the pivot row scan
(lines 88-98), the gap-one scan (lines 105-124) and the final selection
(lines 196-221).

Second, a model of the whole routine.  The source text of the frontier
extension scans (lines 141-180) is malformed (undeclared variables,
malformed loop headers) and the pivot row scan loses its index, so the
routine as transcribed does not define a program there; following the
specification (its sections 4.1, 4.2 and 8, and its design note on the
defective transcription), the modelled routine recomputes each frontier
and score from their defining formulas and selects the first row whose
frontier gap is maximal.
-/

namespace SearchMonomials

/-- The cross product cell M[i][j] = a[i] + b[j]. -/
def cell {M : Type} (add : M → M → M) (a : ℕ → M) (b : ℕ → M) (i j : ℕ) : M :=
  add (a i) (b j)

/-- The set of matrix positions whose cell is at most e. -/
def scoreSet {M : Type} [LinearOrder M] (add : M → M → M) (a : ℕ → M) (alen : ℕ)
    (b : ℕ → M) (blen : ℕ) (e : M) : Finset (ℕ × ℕ) :=
  (Finset.range alen ×ˢ Finset.range blen).filter (fun p => add (a p.1) (b p.2) ≤ e)

/-- score(e) = number of cross products a[i] + b[j] with i < alen, j < blen
that are at most e.  This is the quantity the source maintains in fscore,
gscore and hscore (comment at lines 18-26 of the source). -/
def score {M : Type} [LinearOrder M] (add : M → M → M) (a : ℕ → M) (alen : ℕ)
    (b : ℕ → M) (blen : ℕ) (e : M) : ℕ :=
  (scoreSet add a alen b blen e).card

/-- The frontier of a threshold e at row i: the smallest column j < blen with
a[i] + b[j] ≤ e, and blen when the whole row is above e (comment at
lines 35-42 of the source). -/
def frontier {M : Type} [LinearOrder M] (add : M → M → M) (a : ℕ → M)
    (b : ℕ → M) (blen : ℕ) (e : M) (i : ℕ) : ℕ :=
  (((List.range blen).find? (fun j => decide (add (a i) (b j) ≤ e)))).getD blen

/-- Literal embedding of the final selection (lines 196-221 of the source):
the if chain that picks between the F candidate (fexp, fscore) and the
G candidate (gexp, gscore) once the loop has stopped. -/
def finalSelect {M : Type} (fscore gscore lower upper : ℤ) (fexp gexp : M) : M × ℤ :=
  if fscore ≤ lower then (fexp, fscore)
  else if gscore ≥ upper then (gexp, gscore)
  else if fscore ≤ upper then (fexp, fscore)
  else if gscore ≥ lower then (gexp, gscore)
  else if fscore - upper < lower - gscore then (fexp, fscore)
  else (gexp, gscore)

/-- Literal embedding of the pivot row scan (lines 88-98 of the source):
starting from maxdiff = -1 and maxind = -1, each row i with a larger gap
gind[i] - find[i] updates maxdiff, but the source then assigns
maxind = -1 instead of maxind = i, so the winning row index is lost. -/
def pivotRowScanLiteral (find gind : ℕ → ℕ) (alen : ℕ) : ℤ × ℤ :=
  (List.range alen).foldl
    (fun md i =>
      if md.1 < (gind i : ℤ) - (find i : ℤ) then ((gind i : ℤ) - (find i : ℤ), (-1 : ℤ))
      else md)
    ((-1 : ℤ), (-1 : ℤ))

/-- Literal embedding of the gap-one scan (lines 105-124 of the source):
scan every row i, and whenever gind[i] > find[i] and the cell
a[i] + b[find[i]] differs from fexp, record i as the pivot row; the
accumulator is overwritten on each match, so the last matching row wins,
and the scan yields none when no row matches. -/
def scanGapOne {M : Type} [LinearOrder M] (add : M → M → M) (a : ℕ → M)
    (alen : ℕ) (b : ℕ → M) (fexp : M) (find gind : ℕ → ℕ) : Option ℕ :=
  (List.range alen).foldl
    (fun acc i =>
      if find i < gind i ∧ add (a i) (b (find i)) ≠ fexp then some i else acc)
    none

/-- Literal embedding of the candidate initialisation (lines 53-75 of the
source), keeping its defects: fscore, fexp and the zeroing loop for find
are as intended (lines 54-59), but then line 65 computes the G monomial
into gexp only for the loop at lines 66-67 to overwrite every word of
gexp with 0 (modelled by the zero argument), and the loop at lines 68-70
writes the G frontier values into find instead of gind, leaving gind
uninitialised and clobbering find.  The returned tuple is
(fscore, fexp, find, gscore, gexp) as they stand after line 75. -/
def initLiteral {M : Type} (add : M → M → M) (zero : M) (a : ℕ → M) (alen : ℕ)
    (b : ℕ → M) (blen : ℕ) : ℤ × M × List ℕ × ℤ × M :=
  let fscore : ℤ := (alen : ℤ) * (blen : ℤ)
  let fexp := add (a 0) (b 0)
  let find0 := List.replicate alen (0 : ℕ)
  let gscore : ℤ := 1
  let _gexp0 := add (a (alen - 1)) (b (blen - 1))
  let gexp := zero
  let find1 := find0.map (fun _ => blen)
  let find := find1.set (alen - 1) (blen - 1)
  (fscore, fexp, find, gscore, gexp)

/-- Maximal frontier gap gind[i] - find[i] over the rows, starting from -1
as in the source (line 89). -/
def maxGap (find gind : ℕ → ℕ) (alen : ℕ) : ℤ :=
  ((List.range alen).map (fun i => (gind i : ℤ) - (find i : ℤ))).foldl max (-1)

/-- One iteration of the main loop, producing the new pair of candidate
monomials, or none when the loop breaks because the F and G paths cannot
be separated.  The frontiers and the score of the new candidate are
recomputed from their defining formulas.

Modelled from the spec: the frontier extension scans of the source
(lines 141-180) are malformed (undeclared variables x and j, malformed
loop headers) and the pivot row scan loses its winning index, so this
step follows sections 4.1-4.3 of the specification: the pivot row is the
first row attaining the maximal gap, its column is the integer midpoint
(gind[p] + find[p]) / 2 when the gap is at least 2, the gap-one case
uses the literal scan of lines 105-124, and the new candidate replaces G
when its score is at most upper and replaces F otherwise (lines 183-192). -/
def stepModel {M : Type} [LinearOrder M] (add : M → M → M) (a : ℕ → M) (alen : ℕ)
    (b : ℕ → M) (blen : ℕ) (upper : ℤ) (fexp gexp : M) : Option (M × M) :=
  let find := fun i => frontier add a b blen fexp i
  let gind := fun i => frontier add a b blen gexp i
  let maxdiff := maxGap find gind alen
  let update := fun (hexp : M) =>
    if (score add a alen b blen hexp : ℤ) ≤ upper then (fexp, hexp) else (hexp, gexp)
  if maxdiff = 0 then none
  else if maxdiff = 1 then
    match scanGapOne add a alen b fexp find gind with
    | none => none
    | some r => some (update (add (a r) (b (find r))))
  else
    match (List.range alen).find? (fun i => decide ((gind i : ℤ) - (find i : ℤ) = maxdiff)) with
    | none => none
    | some p => some (update (add (a p) (b ((gind p + find p) / 2))))

/-- The main loop (lines 86-193 of the source), with explicit fuel: while
gscore < lower and upper < fscore, run one step; a step returning none is
the break of the source and yields the current candidates.  Exhausted
fuel yields none. -/
def loopModel {M : Type} [LinearOrder M] (add : M → M → M) (a : ℕ → M) (alen : ℕ)
    (b : ℕ → M) (blen : ℕ) (lower upper : ℤ) : ℕ → M → M → Option (M × M)
  | 0, _, _ => none
  | fuel + 1, fexp, gexp =>
    if (score add a alen b blen gexp : ℤ) < lower ∧ upper < (score add a alen b blen fexp : ℤ) then
      match stepModel add a alen b blen upper fexp gexp with
      | none => some (fexp, gexp)
      | some (fexp1, gexp1) => loopModel add a alen b blen lower upper fuel fexp1 gexp1
    else
      some (fexp, gexp)

/-- The whole routine: early exit when the initial scores coincide (which
the source tests as the constant equation alen * blen = 1, lines 77-83),
otherwise the main loop starting from the extreme cells followed by the
final selection, with fuel alen * blen.  Returns the chosen monomial and
its score, or none if the fuel runs out (the termination theorem shows it
does not on valid inputs).

Modelled from the spec: the loop body is stepModel above, and the scores
handed to the final selection are recomputed from the score formula,
which section 8 of the specification states agrees exactly with the
incremental bookkeeping of the source. -/
def fmpz_mpoly_search_monomials {M : Type} [LinearOrder M] (add : M → M → M)
    (a : ℕ → M) (alen : ℕ) (b : ℕ → M) (blen : ℕ) (lower upper : ℤ) : Option (M × ℤ) :=
  if (alen : ℤ) * (blen : ℤ) = 1 then
    some (add (a 0) (b 0), (alen : ℤ) * (blen : ℤ))
  else
    match loopModel add a alen b blen lower upper (alen * blen)
        (add (a 0) (b 0)) (add (a (alen - 1)) (b (blen - 1))) with
    | none => none
    | some (fexp, gexp) =>
      some (finalSelect (score add a alen b blen fexp) (score add a alen b blen gexp)
        lower upper fexp gexp)

/-- e is one of the cross product cells of the matrix. -/
def IsCell {M : Type} (add : M → M → M) (a : ℕ → M) (alen : ℕ) (b : ℕ → M)
    (blen : ℕ) (e : M) : Prop :=
  ∃ i j, i < alen ∧ j < blen ∧ e = add (a i) (b j)

/-- Concrete sequence A = [5, 3, 1] of single-field monomials, as in the
worked scenario of the specification. -/
def exA : ℕ → ℤ := fun i => [5, 3, 1].getD i 0

/-- Concrete sequence B = [4, 2]. -/
def exB : ℕ → ℤ := fun j => [4, 2].getD j 0

/-- Singleton sequence A = [5]. -/
def exA1 : ℕ → ℤ := fun i => [5].getD i 0

/-- Singleton sequence B = [4]. -/
def exB1 : ℕ → ℤ := fun j => [4].getD j 0

theorem find?_range_eq_none {p : ℕ → Bool} {n : ℕ}
    (h : (List.range n).find? p = none) : ∀ k, k < n → p k = false := by
  induction n with
  | zero => intro k hk; omega
  | succ n ih =>
    rw [List.range_succ, List.find?_append] at h
    intro k hk
    cases hfn : (List.range n).find? p with
    | some j0 => rw [hfn] at h; simp at h
    | none =>
      rw [hfn] at h
      simp [List.find?] at h
      rcases Nat.lt_succ_iff_lt_or_eq.mp hk with hk1 | hk1
      · exact ih hfn k hk1
      · subst hk1
        cases hpk : p k with
        | false => rfl
        | true => rw [hpk] at h; simp at h

theorem find?_range_eq_some {p : ℕ → Bool} {n j : ℕ}
    (h : (List.range n).find? p = some j) :
    j < n ∧ p j = true ∧ ∀ k, k < j → p k = false := by
  induction n with
  | zero => simp [List.range_zero] at h
  | succ n ih =>
    rw [List.range_succ, List.find?_append] at h
    cases hfn : (List.range n).find? p with
    | some j0 =>
      rw [hfn] at h
      simp at h
      subst h
      obtain ⟨h1, h2, h3⟩ := ih hfn
      exact ⟨Nat.lt_succ_of_lt h1, h2, h3⟩
    | none =>
      rw [hfn] at h
      simp [List.find?] at h
      cases hpn : p n with
      | false => rw [hpn] at h; simp at h
      | true =>
        rw [hpn] at h
        simp at h
        subst h
        exact ⟨Nat.lt_succ_self n, hpn, fun k hk => find?_range_eq_none hfn k hk⟩

theorem foldl_max_init_le (l : List ℤ) (init : ℤ) : init ≤ l.foldl max init := by
  induction l generalizing init with
  | nil => simp
  | cons x xs ih => exact le_trans (le_max_left init x) (ih (max init x))

theorem foldl_max_le (l : List ℤ) (init : ℤ) {x : ℤ} (hx : x ∈ l) :
    x ≤ l.foldl max init := by
  induction l generalizing init with
  | nil => simp at hx
  | cons y ys ih =>
    rcases List.mem_cons.mp hx with h | h
    · subst h
      exact le_trans (le_max_right init x) (foldl_max_init_le ys (max init x))
    · exact ih (max init y) h

theorem foldl_max_mem (l : List ℤ) (init : ℤ) :
    l.foldl max init = init ∨ l.foldl max init ∈ l := by
  induction l generalizing init with
  | nil => simp
  | cons x xs ih =>
    rcases ih (max init x) with h | h
    · simp only [List.foldl_cons] at *
      rcases max_cases init x with ⟨hm, _⟩ | ⟨hm, _⟩
      · left; rw [h, hm]
      · right; rw [h, hm]; exact List.mem_cons_self x xs
    · right
      exact List.mem_cons_of_mem x h

theorem scanGapOne_succ {M : Type} [LinearOrder M] (add : M → M → M) (a : ℕ → M)
    (n : ℕ) (b : ℕ → M) (fexp : M) (find gind : ℕ → ℕ) :
    scanGapOne add a (n + 1) b fexp find gind =
      (if find n < gind n ∧ add (a n) (b (find n)) ≠ fexp then some n
       else scanGapOne add a n b fexp find gind) := by
  unfold scanGapOne
  rw [List.range_succ, List.foldl_append]
  simp

theorem scanGapOne_none_iff {M : Type} [LinearOrder M] (add : M → M → M) (a : ℕ → M)
    (alen : ℕ) (b : ℕ → M) (fexp : M) (find gind : ℕ → ℕ) :
    scanGapOne add a alen b fexp find gind = none ↔
      ∀ s, s < alen → ¬(find s < gind s ∧ add (a s) (b (find s)) ≠ fexp) := by
  induction alen with
  | zero => simp [scanGapOne]
  | succ n ih =>
    rw [scanGapOne_succ]
    by_cases hp : find n < gind n ∧ add (a n) (b (find n)) ≠ fexp
    · simp only [if_pos hp]
      constructor
      · intro h; exact absurd h (by simp)
      · intro h; exact absurd hp (h n (Nat.lt_succ_self n))
    · simp only [if_neg hp, ih]
      constructor
      · intro h s hs
        rcases Nat.lt_succ_iff_lt_or_eq.mp hs with hs1 | hs1
        · exact h s hs1
        · subst hs1; exact hp
      · intro h s hs
        exact h s (Nat.lt_succ_of_lt hs)

theorem scanGapOne_some_iff {M : Type} [LinearOrder M] (add : M → M → M) (a : ℕ → M)
    (alen : ℕ) (b : ℕ → M) (fexp : M) (find gind : ℕ → ℕ) (r : ℕ) :
    scanGapOne add a alen b fexp find gind = some r ↔
      (r < alen ∧ (find r < gind r ∧ add (a r) (b (find r)) ≠ fexp) ∧
       ∀ s, r < s → s < alen → ¬(find s < gind s ∧ add (a s) (b (find s)) ≠ fexp)) := by
  induction alen with
  | zero => simp [scanGapOne]
  | succ n ih =>
    rw [scanGapOne_succ]
    by_cases hp : find n < gind n ∧ add (a n) (b (find n)) ≠ fexp
    · simp only [if_pos hp]
      constructor
      · intro h
        have h9 := Option.some_inj.mp h
        subst h9
        exact ⟨Nat.lt_succ_self _, hp, fun s hs1 hs2 => by omega⟩
      · rintro ⟨h1, h2, h3⟩
        rcases Nat.lt_succ_iff_lt_or_eq.mp h1 with hr | hr
        · exact absurd hp (h3 n hr (Nat.lt_succ_self n))
        · subst hr; rfl
    · simp only [if_neg hp, ih]
      constructor
      · rintro ⟨h1, h2, h3⟩
        refine ⟨Nat.lt_succ_of_lt h1, h2, ?_⟩
        intro s hs1 hs2
        rcases Nat.lt_succ_iff_lt_or_eq.mp hs2 with hs3 | hs3
        · exact h3 s hs1 hs3
        · subst hs3; exact hp
      · rintro ⟨h1, h2, h3⟩
        rcases Nat.lt_succ_iff_lt_or_eq.mp h1 with hr | hr
        · exact ⟨hr, h2, fun s hs1 hs2 => h3 s hs1 (Nat.lt_succ_of_lt hs2)⟩
        · subst hr; exact absurd h2 hp

section FrontierScore

variable {M : Type} [LinearOrder M] (add : M → M → M) (a : ℕ → M) (alen : ℕ)
  (b : ℕ → M) (blen : ℕ)

theorem frontier_le_blen (e : M) (i : ℕ) : frontier add a b blen e i ≤ blen := by
  unfold frontier
  cases hf : (List.range blen).find? (fun j => decide (add (a i) (b j) ≤ e)) with
  | none => simp
  | some j =>
    simp only [Option.getD_some]
    exact le_of_lt (find?_range_eq_some hf).1

theorem frontier_cell_le {e : M} {i : ℕ} (h : frontier add a b blen e i < blen) :
    add (a i) (b (frontier add a b blen e i)) ≤ e := by
  unfold frontier at *
  cases hf : (List.range blen).find? (fun j => decide (add (a i) (b j) ≤ e)) with
  | none => rw [hf] at h; simp at h
  | some j =>
    simp only [Option.getD_some]
    have h2 := (find?_range_eq_some hf).2.1
    simpa using h2

theorem lt_of_lt_frontier {e : M} {i q : ℕ} (hq : q < blen)
    (h : q < frontier add a b blen e i) : e < add (a i) (b q) := by
  rcases lt_or_le e (add (a i) (b q)) with h1 | h1
  · exact h1
  exfalso
  unfold frontier at h
  cases hf : (List.range blen).find? (fun j => decide (add (a i) (b j) ≤ e)) with
  | none =>
    have := find?_range_eq_none hf q hq
    simp at this
    exact absurd h1 (not_le.mpr this)
  | some j =>
    rw [hf] at h
    simp only [Option.getD_some] at h
    have := (find?_range_eq_some hf).2.2 q h
    simp at this
    exact absurd h1 (not_le.mpr this)

theorem frontier_le_of_cell_le {e : M} {i q : ℕ} (hq : q < blen)
    (h : add (a i) (b q) ≤ e) : frontier add a b blen e i ≤ q := by
  by_contra hcon
  exact absurd h (not_le.mpr (lt_of_lt_frontier add a b blen hq (not_le.mp hcon)))

theorem frontier_anti {x y : M} (hxy : x ≤ y) (i : ℕ) :
    frontier add a b blen y i ≤ frontier add a b blen x i := by
  rcases lt_or_le (frontier add a b blen x i) blen with h | h
  · exact frontier_le_of_cell_le add a b blen h
      (le_trans (frontier_cell_le add a b blen h) hxy)
  · exact le_trans (frontier_le_blen add a b blen y i) h

theorem score_mono {x y : M} (hxy : x ≤ y) :
    score add a alen b blen x ≤ score add a alen b blen y := by
  apply Finset.card_le_card
  intro p hp
  simp only [scoreSet, Finset.mem_filter] at hp ⊢
  exact ⟨hp.1, le_trans hp.2 hxy⟩

theorem mem_scoreSet {e : M} {i j : ℕ} (hi : i < alen) (hj : j < blen)
    (h : add (a i) (b j) ≤ e) : (i, j) ∈ scoreSet add a alen b blen e := by
  simp only [scoreSet, Finset.mem_filter, Finset.mem_product, Finset.mem_range]
  exact ⟨⟨hi, hj⟩, h⟩

theorem score_lt_score {x : M} {i j : ℕ} (hi : i < alen) (hj : j < blen)
    (hx : x < add (a i) (b j)) :
    score add a alen b blen x < score add a alen b blen (add (a i) (b j)) := by
  apply Finset.card_lt_card
  rw [Finset.ssubset_iff_of_subset]
  · refine ⟨(i, j), mem_scoreSet add a alen b blen hi hj le_rfl, ?_⟩
    simp only [scoreSet, Finset.mem_filter, Finset.mem_product, Finset.mem_range]
    rintro ⟨-, h2⟩
    exact absurd hx (not_lt.mpr h2)
  · intro p hp
    simp only [scoreSet, Finset.mem_filter] at hp ⊢
    exact ⟨hp.1, le_trans hp.2 (le_of_lt hx)⟩

theorem score_pos {i j : ℕ} (hi : i < alen) (hj : j < blen) :
    0 < score add a alen b blen (add (a i) (b j)) :=
  Finset.card_pos.mpr ⟨(i, j), mem_scoreSet add a alen b blen hi hj le_rfl⟩

theorem score_le_mul (e : M) : score add a alen b blen e ≤ alen * blen := by
  calc score add a alen b blen e
      ≤ (Finset.range alen ×ˢ Finset.range blen).card :=
        Finset.card_le_card (Finset.filter_subset _ _)
    _ = alen * blen := by rw [Finset.card_product, Finset.card_range, Finset.card_range]

end FrontierScore

section Monotone

variable {M : Type} [LinearOrder M] {add : M → M → M} {a : ℕ → M} {alen : ℕ}
  {b : ℕ → M} {blen : ℕ}

/-- From strict monotonicity of the external addition in its first
argument, the non-strict version. -/
theorem add_le_left (hm1 : ∀ x y z : M, x < y → add x z < add y z)
    {x y : M} (h : x ≤ y) (z : M) : add x z ≤ add y z := by
  rcases lt_or_eq_of_le h with h1 | h1
  · exact le_of_lt (hm1 x y z h1)
  · subst h1; exact le_rfl

theorem add_le_right (hm2 : ∀ x y z : M, x < y → add z x < add z y)
    {x y : M} (h : x ≤ y) (z : M) : add z x ≤ add z y := by
  rcases lt_or_eq_of_le h with h1 | h1
  · exact le_of_lt (hm2 x y z h1)
  · subst h1; exact le_rfl

/-- Every cell is at most the top corner cell a[0] + b[0]. -/
theorem cell_le_top (hm1 : ∀ x y z : M, x < y → add x z < add y z)
    (hm2 : ∀ x y z : M, x < y → add z x < add z y)
    (hA : ∀ i j, i < j → j < alen → a j < a i)
    (hB : ∀ i j, i < j → j < blen → b j < b i)
    {i j : ℕ} (hi : i < alen) (hj : j < blen) :
    add (a i) (b j) ≤ add (a 0) (b 0) := by
  have h1 : a i ≤ a 0 := by
    rcases Nat.eq_zero_or_pos i with h | h
    · subst h; exact le_rfl
    · exact le_of_lt (hA 0 i h hi)
  have h2 : b j ≤ b 0 := by
    rcases Nat.eq_zero_or_pos j with h | h
    · subst h; exact le_rfl
    · exact le_of_lt (hB 0 j h hj)
  exact le_trans (add_le_left hm1 h1 (b j)) (add_le_right hm2 h2 (a 0))

/-- The bottom corner cell is strictly below every other cell. -/
theorem bot_lt_cell (hm1 : ∀ x y z : M, x < y → add x z < add y z)
    (hm2 : ∀ x y z : M, x < y → add z x < add z y)
    (hA : ∀ i j, i < j → j < alen → a j < a i)
    (hB : ∀ i j, i < j → j < blen → b j < b i)
    (halen : 0 < alen) (hblen : 0 < blen)
    {i j : ℕ} (hi : i < alen) (hj : j < blen)
    (hne : ¬(i = alen - 1 ∧ j = blen - 1)) :
    add (a (alen - 1)) (b (blen - 1)) < add (a i) (b j) := by
  have h1 : a i ≥ a (alen - 1) ∧ (i ≠ alen - 1 → a (alen - 1) < a i) := by
    constructor
    · rcases Nat.lt_or_ge i (alen - 1) with h | h
      · exact le_of_lt (hA i (alen - 1) h (by omega))
      · have : i = alen - 1 := by omega
        subst this; exact le_rfl
    · intro hne1
      have : i < alen - 1 := by omega
      exact hA i (alen - 1) this (by omega)
  have h2 : b j ≥ b (blen - 1) ∧ (j ≠ blen - 1 → b (blen - 1) < b j) := by
    constructor
    · rcases Nat.lt_or_ge j (blen - 1) with h | h
      · exact le_of_lt (hB j (blen - 1) h (by omega))
      · have : j = blen - 1 := by omega
        subst this; exact le_rfl
    · intro hne1
      have : j < blen - 1 := by omega
      exact hB j (blen - 1) this (by omega)
  by_cases hi1 : i = alen - 1
  · have hbj : b (blen - 1) < b j := h2.2 (fun h => hne ⟨hi1, h⟩)
    calc add (a (alen - 1)) (b (blen - 1)) < add (a (alen - 1)) (b j) :=
          hm2 _ _ _ hbj
      _ ≤ add (a i) (b j) := add_le_left hm1 h1.1 (b j)
  · have hai : a (alen - 1) < a i := h1.2 hi1
    calc add (a (alen - 1)) (b (blen - 1)) ≤ add (a (alen - 1)) (b j) :=
          add_le_right hm2 h2.1 (a (alen - 1))
      _ < add (a i) (b j) := hm1 _ _ _ hai

end Monotone

section TopBot

variable {M : Type} [LinearOrder M] {add : M → M → M} {a : ℕ → M} {alen : ℕ}
  {b : ℕ → M} {blen : ℕ}

/-- The score of the initial F candidate a[0] + b[0] is alen * blen. -/
theorem score_top (hm1 : ∀ x y z : M, x < y → add x z < add y z)
    (hm2 : ∀ x y z : M, x < y → add z x < add z y)
    (hA : ∀ i j, i < j → j < alen → a j < a i)
    (hB : ∀ i j, i < j → j < blen → b j < b i) :
    score add a alen b blen (add (a 0) (b 0)) = alen * blen := by
  unfold score scoreSet
  rw [Finset.filter_true_of_mem, Finset.card_product, Finset.card_range, Finset.card_range]
  intro p hp
  simp only [Finset.mem_product, Finset.mem_range] at hp
  exact cell_le_top hm1 hm2 hA hB hp.1 hp.2

/-- The score of the initial G candidate a[alen-1] + b[blen-1] is 1. -/
theorem score_bot (hm1 : ∀ x y z : M, x < y → add x z < add y z)
    (hm2 : ∀ x y z : M, x < y → add z x < add z y)
    (hA : ∀ i j, i < j → j < alen → a j < a i)
    (hB : ∀ i j, i < j → j < blen → b j < b i)
    (halen : 0 < alen) (hblen : 0 < blen) :
    score add a alen b blen (add (a (alen - 1)) (b (blen - 1))) = 1 := by
  unfold score scoreSet
  have hset : (Finset.range alen ×ˢ Finset.range blen).filter
      (fun p => add (a p.1) (b p.2) ≤ add (a (alen - 1)) (b (blen - 1))) =
      {(alen - 1, blen - 1)} := by
    ext p
    simp only [Finset.mem_filter, Finset.mem_product, Finset.mem_range,
      Finset.mem_singleton]
    constructor
    · rintro ⟨⟨hp1, hp2⟩, hple⟩
      by_contra hcon
      have hne : ¬(p.1 = alen - 1 ∧ p.2 = blen - 1) := by
        intro h
        exact hcon (Prod.ext h.1 h.2)
      exact absurd hple
        (not_le.mpr (bot_lt_cell hm1 hm2 hA hB halen hblen hp1 hp2 hne))
    · intro h
      subst h
      exact ⟨⟨by omega, by omega⟩, le_rfl⟩
  rw [hset, Finset.card_singleton]

end TopBot

theorem maxGap_ge (find gind : ℕ → ℕ) (alen : ℕ) {i : ℕ} (hi : i < alen) :
    (gind i : ℤ) - (find i : ℤ) ≤ maxGap find gind alen := by
  apply foldl_max_le
  exact List.mem_map_of_mem _ (List.mem_range.mpr hi)

theorem maxGap_attained (find gind : ℕ → ℕ) (alen : ℕ)
    (h : maxGap find gind alen ≠ -1) :
    ∃ i, i < alen ∧ (gind i : ℤ) - (find i : ℤ) = maxGap find gind alen := by
  rcases foldl_max_mem ((List.range alen).map (fun i => (gind i : ℤ) - (find i : ℤ))) (-1)
    with h1 | h1
  · exact absurd h1 h
  · rcases List.mem_map.mp h1 with ⟨i, hi, hieq⟩
    exact ⟨i, List.mem_range.mp hi, hieq⟩

section StepLemmas

variable {M : Type} [LinearOrder M] {add : M → M → M} {a : ℕ → M} {alen : ℕ}
  {b : ℕ → M} {blen : ℕ}

/-- Any step that produces a new pair of candidates does so through a pivot
cell lying strictly between the G and F monomials, and the new pair is the
bracket update of the source (lines 183-192) at that cell. -/
theorem stepModel_some (hm2 : ∀ x y z : M, x < y → add z x < add z y)
    (hB : ∀ i j, i < j → j < blen → b j < b i)
    (halen : 0 < alen)
    {upper : ℤ} {fexp gexp f1 g1 : M}
    (hfg : gexp < fexp)
    (h : stepModel add a alen b blen upper fexp gexp = some (f1, g1)) :
    ∃ p q, p < alen ∧ q < blen ∧
      gexp < add (a p) (b q) ∧ add (a p) (b q) < fexp ∧
      (((score add a alen b blen (add (a p) (b q)) : ℤ) ≤ upper ∧
          f1 = fexp ∧ g1 = add (a p) (b q)) ∨
       (¬((score add a alen b blen (add (a p) (b q)) : ℤ) ≤ upper) ∧
          f1 = add (a p) (b q) ∧ g1 = gexp)) := by
  unfold stepModel at h
  set find := fun i => frontier add a b blen fexp i with hfind_def
  set gind := fun i => frontier add a b blen gexp i with hgind_def
  by_cases hmd0 : maxGap find gind alen = 0
  · simp only [hmd0, if_pos rfl] at h
    simp at h
  rw [if_neg hmd0] at h
  by_cases hmd1 : maxGap find gind alen = 1
  · rw [if_pos hmd1] at h
    cases hscan : scanGapOne add a alen b fexp find gind with
    | none => rw [hscan] at h; simp at h
    | some r =>
      rw [hscan] at h
      dsimp only at h
      obtain ⟨hr1, ⟨hr2, hr3⟩, -⟩ := (scanGapOne_some_iff add a alen b fexp find gind r).mp hscan
      have hqb : find r < blen := lt_of_lt_of_le hr2 (frontier_le_blen add a b blen gexp r)
      have hlef : add (a r) (b (find r)) ≤ fexp := frontier_cell_le add a b blen hqb
      have hltf : add (a r) (b (find r)) < fexp := lt_of_le_of_ne hlef hr3
      have hgtg : gexp < add (a r) (b (find r)) :=
        lt_of_lt_frontier add a b blen hqb hr2
      refine ⟨r, find r, hr1, hqb, hgtg, hltf, ?_⟩
      by_cases hsc : (score add a alen b blen (add (a r) (b (find r))) : ℤ) ≤ upper
      · left
        rw [if_pos hsc] at h
        simp only [Option.some_inj, Prod.mk.injEq] at h
        exact ⟨hsc, h.1.symm, h.2.symm⟩
      · right
        rw [if_neg hsc] at h
        simp only [Option.some_inj, Prod.mk.injEq] at h
        exact ⟨hsc, h.1.symm, h.2.symm⟩
  · rw [if_neg hmd1] at h
    cases hfound : (List.range alen).find?
        (fun i => decide ((gind i : ℤ) - (find i : ℤ) = maxGap find gind alen)) with
    | none => rw [hfound] at h; simp at h
    | some p =>
      rw [hfound] at h
      dsimp only at h
      obtain ⟨hp1, hp2, -⟩ := find?_range_eq_some hfound
      have hpgap : (gind p : ℤ) - (find p : ℤ) = maxGap find gind alen :=
        of_decide_eq_true hp2
      have hge0 : (0 : ℤ) ≤ maxGap find gind alen := by
        have h0 : (gind 0 : ℤ) - (find 0 : ℤ) ≤ maxGap find gind alen :=
          maxGap_ge find gind alen halen
        have h1 : find 0 ≤ gind 0 := frontier_anti add a b blen (le_of_lt hfg) 0
        omega
      have hgap2 : find p + 2 ≤ gind p := by
        have : maxGap find gind alen ≠ 0 := hmd0
        have : maxGap find gind alen ≠ 1 := hmd1
        omega
      set q := (gind p + find p) / 2 with hq_def
      have hdiv := Nat.div_add_mod (gind p + find p) 2
      have hmod : (gind p + find p) % 2 < 2 := Nat.mod_lt _ (by omega)
      have hq1 : find p < q := by omega
      have hq2 : q < gind p := by omega
      have hqblen : q < blen := lt_of_lt_of_le hq2 (frontier_le_blen add a b blen gexp p)
      have hfpblen : find p < blen := lt_trans hq1 hqblen
      have hltf : add (a p) (b q) < fexp :=
        lt_of_lt_of_le (hm2 _ _ _ (hB (find p) q hq1 hqblen))
          (frontier_cell_le add a b blen hfpblen)
      have hgtg : gexp < add (a p) (b q) :=
        lt_of_lt_frontier add a b blen hqblen hq2
      refine ⟨p, q, hp1, hqblen, hgtg, hltf, ?_⟩
      by_cases hsc : (score add a alen b blen (add (a p) (b q)) : ℤ) ≤ upper
      · left
        rw [if_pos hsc] at h
        simp only [Option.some_inj, Prod.mk.injEq] at h
        exact ⟨hsc, h.1.symm, h.2.symm⟩
      · right
        rw [if_neg hsc] at h
        simp only [Option.some_inj, Prod.mk.injEq] at h
        exact ⟨hsc, h.1.symm, h.2.symm⟩

end StepLemmas

section StepNone

variable {M : Type} [LinearOrder M] {add : M → M → M} {a : ℕ → M} {alen : ℕ}
  {b : ℕ → M} {blen : ℕ}

/-- When a step breaks (returns none), no cell lies strictly between the
G and F monomials: the two paths cannot be separated. -/
theorem stepModel_none (hm2 : ∀ x y z : M, x < y → add z x < add z y)
    (hB : ∀ i j, i < j → j < blen → b j < b i)
    {upper : ℤ} {fexp gexp : M}
    (h : stepModel add a alen b blen upper fexp gexp = none) :
    ∀ i j, i < alen → j < blen →
      ¬(gexp < add (a i) (b j) ∧ add (a i) (b j) < fexp) := by
  rintro i j hi hj ⟨hg, hf⟩
  set find := fun i => frontier add a b blen fexp i with hfind_def
  set gind := fun i => frontier add a b blen gexp i with hgind_def
  have hfindj : find i ≤ j := frontier_le_of_cell_le add a b blen hj (le_of_lt hf)
  have hjgind : j < gind i := by
    by_contra hcon
    push_neg at hcon
    have hgblen : gind i < blen := lt_of_le_of_lt hcon hj
    have h1 : add (a i) (b (gind i)) ≤ gexp := frontier_cell_le add a b blen hgblen
    have h2 : b j ≤ b (gind i) := by
      rcases lt_or_eq_of_le hcon with h3 | h3
      · exact le_of_lt (hB (gind i) j h3 hj)
      · rw [h3]
    have h4 : add (a i) (b j) ≤ gexp :=
      le_trans (add_le_right hm2 h2 (a i)) h1
    exact absurd hg (not_lt.mpr h4)
  have hgap1 : (1 : ℤ) ≤ (gind i : ℤ) - (find i : ℤ) := by omega
  have hmdge1 : (1 : ℤ) ≤ maxGap find gind alen :=
    le_trans hgap1 (maxGap_ge find gind alen hi)
  unfold stepModel at h
  rw [if_neg (by omega : ¬maxGap find gind alen = 0)] at h
  by_cases hmd1 : maxGap find gind alen = 1
  · rw [if_pos hmd1] at h
    cases hscan : scanGapOne add a alen b fexp find gind with
    | some r => rw [hscan] at h; simp at h
    | none =>
      have hall := (scanGapOne_none_iff add a alen b fexp find gind).mp hscan i hi
      have hfi : find i < gind i := by omega
      have heq : add (a i) (b (find i)) = fexp := by
        by_contra hne
        exact hall ⟨hfi, hne⟩
      have hle1 : (gind i : ℤ) - (find i : ℤ) ≤ 1 := hmd1 ▸ maxGap_ge find gind alen hi
      have hjfi : j = find i := by omega
      rw [hjfi] at hf
      rw [heq] at hf
      exact lt_irrefl fexp hf
  · rw [if_neg hmd1] at h
    cases hfound : (List.range alen).find?
        (fun k => decide ((gind k : ℤ) - (find k : ℤ) = maxGap find gind alen)) with
    | some p => rw [hfound] at h; simp at h
    | none =>
      obtain ⟨k, hk1, hk2⟩ := maxGap_attained find gind alen (by omega)
      have := find?_range_eq_none hfound k hk1
      simp only [decide_eq_false_iff_not] at this
      exact this hk2

end StepNone

section LoopLemmas

variable {M : Type} [LinearOrder M] {add : M → M → M} {a : ℕ → M} {alen : ℕ}
  {b : ℕ → M} {blen : ℕ}

theorem score_lt_of_lt_cell {x y : M}
    (hy : IsCell add a alen b blen y) (hxy : x < y) :
    score add a alen b blen x < score add a alen b blen y := by
  obtain ⟨i, j, hi, hj, rfl⟩ := hy
  exact score_lt_score add a alen b blen hi hj hxy

theorem lt_of_score_lt (add : M → M → M) (a : ℕ → M) (alen : ℕ) (b : ℕ → M)
    (blen : ℕ) {x y : M}
    (h : score add a alen b blen x < score add a alen b blen y) : x < y := by
  by_contra hcon
  push_neg at hcon
  exact absurd (score_mono add a alen b blen hcon) (not_le.mpr h)

/-- The loop never runs out of fuel: any fuel exceeding the current score
bracket yields a result. -/
theorem loopModel_isSome
    (hm2 : ∀ x y z : M, x < y → add z x < add z y)
    (hB : ∀ i j, i < j → j < blen → b j < b i)
    (halen : 0 < alen) {lower upper : ℤ} (hlu : lower ≤ upper) :
    ∀ (fuel : ℕ) (fexp gexp : M),
      IsCell add a alen b blen fexp → IsCell add a alen b blen gexp →
      score add a alen b blen fexp - score add a alen b blen gexp < fuel →
      (loopModel add a alen b blen lower upper fuel fexp gexp).isSome := by
  intro fuel
  induction fuel with
  | zero => intro fexp gexp _ _ hbr; omega
  | succ n ih =>
    intro fexp gexp hfc hgc hbr
    simp only [loopModel]
    by_cases hguard : (score add a alen b blen gexp : ℤ) < lower ∧
        upper < (score add a alen b blen fexp : ℤ)
    · rw [if_pos hguard]
      cases hstep : stepModel add a alen b blen upper fexp gexp with
      | none => simp
      | some fg =>
        obtain ⟨f1, g1⟩ := fg
        have hsc_lt : score add a alen b blen gexp < score add a alen b blen fexp := by
          have := hguard.1
          have := hguard.2
          omega
        have hfg : gexp < fexp := lt_of_score_lt add a alen b blen hsc_lt
        obtain ⟨p, q, hp, hq, hgtg, hltf, hupd⟩ :=
          stepModel_some hm2 hB halen hfg hstep
        have hcell : IsCell add a alen b blen (add (a p) (b q)) := ⟨p, q, hp, hq, rfl⟩
        have hs1 : score add a alen b blen gexp < score add a alen b blen (add (a p) (b q)) :=
          score_lt_of_lt_cell hcell hgtg
        have hs2 : score add a alen b blen (add (a p) (b q)) < score add a alen b blen fexp :=
          score_lt_of_lt_cell hfc hltf
        simp only []
        rcases hupd with ⟨-, rfl, rfl⟩ | ⟨-, rfl, rfl⟩
        · exact ih _ _ hfc hcell (by omega)
        · exact ih _ _ hcell hgc (by omega)
    · rw [if_neg hguard]
      simp

end LoopLemmas

section LoopPost

variable {M : Type} [LinearOrder M] {add : M → M → M} {a : ℕ → M} {alen : ℕ}
  {b : ℕ → M} {blen : ℕ}

/-- If some cell score lies in [lower, upper], the loop ends with candidates
that still bracket the range from the correct sides and at least one of
which has entered the range. -/
theorem loopModel_post
    (hm2 : ∀ x y z : M, x < y → add z x < add z y)
    (hB : ∀ i j, i < j → j < blen → b j < b i)
    (halen : 0 < alen) {lower upper : ℤ}
    (hach : ∃ i j, i < alen ∧ j < blen ∧
      lower ≤ (score add a alen b blen (add (a i) (b j)) : ℤ) ∧
      (score add a alen b blen (add (a i) (b j)) : ℤ) ≤ upper) :
    ∀ (fuel : ℕ) (fexp gexp : M),
      IsCell add a alen b blen fexp → IsCell add a alen b blen gexp →
      lower ≤ (score add a alen b blen fexp : ℤ) →
      (score add a alen b blen gexp : ℤ) ≤ upper →
      score add a alen b blen fexp - score add a alen b blen gexp < fuel →
      ∃ f2 g2, loopModel add a alen b blen lower upper fuel fexp gexp = some (f2, g2) ∧
        lower ≤ (score add a alen b blen f2 : ℤ) ∧
        (score add a alen b blen g2 : ℤ) ≤ upper ∧
        (lower ≤ (score add a alen b blen g2 : ℤ) ∨
         (score add a alen b blen f2 : ℤ) ≤ upper) := by
  intro fuel
  induction fuel with
  | zero => intro fexp gexp _ _ _ _ hbr; omega
  | succ n ih =>
    intro fexp gexp hfc hgc hflo hgup hbr
    simp only [loopModel]
    by_cases hguard : (score add a alen b blen gexp : ℤ) < lower ∧
        upper < (score add a alen b blen fexp : ℤ)
    · rw [if_pos hguard]
      have hsc_lt : score add a alen b blen gexp < score add a alen b blen fexp := by
        have h1 := hguard.1
        have h2 := hguard.2
        omega
      have hfg : gexp < fexp := lt_of_score_lt add a alen b blen hsc_lt
      cases hstep : stepModel add a alen b blen upper fexp gexp with
      | none =>
        exfalso
        obtain ⟨i, j, hi, hj, hlo2, hup2⟩ := hach
        have hbetween := stepModel_none hm2 hB hstep i j hi hj
        have hg2 : gexp < add (a i) (b j) := by
          apply lt_of_score_lt add a alen b blen
          have := hguard.1
          omega
        have hf2 : add (a i) (b j) < fexp := by
          apply lt_of_score_lt add a alen b blen
          have := hguard.2
          omega
        exact hbetween ⟨hg2, hf2⟩
      | some fg =>
        obtain ⟨f1, g1⟩ := fg
        obtain ⟨p, q, hp, hq, hgtg, hltf, hupd⟩ :=
          stepModel_some hm2 hB halen hfg hstep
        have hcell : IsCell add a alen b blen (add (a p) (b q)) := ⟨p, q, hp, hq, rfl⟩
        have hs1 : score add a alen b blen gexp < score add a alen b blen (add (a p) (b q)) :=
          score_lt_of_lt_cell hcell hgtg
        have hs2 : score add a alen b blen (add (a p) (b q)) < score add a alen b blen fexp :=
          score_lt_of_lt_cell hfc hltf
        simp only []
        rcases hupd with ⟨hsc, rfl, rfl⟩ | ⟨hsc, rfl, rfl⟩
        · exact ih _ _ hfc hcell hflo hsc (by omega)
        · exact ih _ _ hcell hgc (by push_neg at hsc; omega) hgup (by omega)
    · rw [if_neg hguard]
      push_neg at hguard
      refine ⟨fexp, gexp, rfl, hflo, hgup, ?_⟩
      by_cases h1 : (score add a alen b blen gexp : ℤ) < lower
      · exact Or.inr (hguard h1)
      · exact Or.inl (by omega)

end LoopPost

/-- The final selection chains through its rules: under the loop exit
invariants it always yields one of the two candidates together with its
true score, and that score is in [lower, upper]. -/
theorem final_select_in_range {M : Type} {fs gs lower upper : ℤ} (fe ge : M)
    (h1 : lower ≤ fs) (h2 : gs ≤ upper) (h3 : lower ≤ gs ∨ fs ≤ upper) :
    (finalSelect fs gs lower upper fe ge = (fe, fs) ∧ lower ≤ fs ∧ fs ≤ upper) ∨
    (finalSelect fs gs lower upper fe ge = (ge, gs) ∧ lower ≤ gs ∧ gs ≤ upper) := by
  rcases h3 with h3 | h3 <;>
  · unfold finalSelect
    split_ifs <;>
      first
        | (left; exact ⟨rfl, by omega⟩)
        | (right; exact ⟨rfl, by omega⟩)
        | (exfalso; omega)

section MainTheorems

variable {M : Type} [LinearOrder M]

/-- C1.  Range-respecting: on valid inputs (strictly descending sequences
over a linear order whose addition is strictly monotone in each argument),
if any value of [lower, upper] is achievable as the score of some cross
product a[i] + b[j], then the routine returns a monomial whose score lies
in [lower, upper], and stores exactly that score. -/
theorem search_monomials_range_respecting
    (add : M → M → M) (a : ℕ → M) (alen : ℕ) (b : ℕ → M) (blen : ℕ)
    (lower upper : ℤ)
    (hm1 : ∀ x y z : M, x < y → add x z < add y z)
    (hm2 : ∀ x y z : M, x < y → add z x < add z y)
    (hA : ∀ i j, i < j → j < alen → a j < a i)
    (hB : ∀ i j, i < j → j < blen → b j < b i)
    (halen : 0 < alen) (hblen : 0 < blen) (hlu : lower ≤ upper)
    (hach : ∃ i j, i < alen ∧ j < blen ∧
      lower ≤ (score add a alen b blen (add (a i) (b j)) : ℤ) ∧
      (score add a alen b blen (add (a i) (b j)) : ℤ) ≤ upper) :
    ∃ eexp escore,
      fmpz_mpoly_search_monomials add a alen b blen lower upper = some (eexp, escore) ∧
      lower ≤ escore ∧ escore ≤ upper ∧
      escore = (score add a alen b blen eexp : ℤ) := by
  obtain ⟨i, j, hi, hj, hlo, hup⟩ := hach
  unfold fmpz_mpoly_search_monomials
  by_cases hone : (alen : ℤ) * (blen : ℤ) = 1
  · rw [if_pos hone]
    have hone2 : alen * blen = 1 := by
      have : ((alen * blen : ℕ) : ℤ) = 1 := by push_cast; exact hone
      omega
    have ha1 : alen = 1 := by
      by_contra hca
      have h2a : 2 ≤ alen := by omega
      have h2 : 2 * 1 ≤ alen * blen := Nat.mul_le_mul h2a hblen
      omega
    have hb1 : blen = 1 := by
      by_contra hcb
      have h2b : 2 ≤ blen := by omega
      have h2 : 1 * 2 ≤ alen * blen := Nat.mul_le_mul halen h2b
      omega
    have hi0 : i = 0 := by omega
    have hj0 : j = 0 := by omega
    subst hi0; subst hj0
    have hsc : score add a alen b blen (add (a 0) (b 0)) = alen * blen :=
      score_top hm1 hm2 hA hB
    refine ⟨add (a 0) (b 0), (alen : ℤ) * (blen : ℤ), rfl, ?_, ?_, ?_⟩
    · rw [hsc, hone2] at hlo; rw [hone]; simpa using hlo
    · rw [hsc, hone2] at hup; rw [hone]; simpa using hup
    · rw [hsc, hone2, hone]; simp
  · rw [if_neg hone]
    have hfc : IsCell add a alen b blen (add (a 0) (b 0)) := ⟨0, 0, halen, hblen, rfl⟩
    have hgc : IsCell add a alen b blen (add (a (alen - 1)) (b (blen - 1))) :=
      ⟨alen - 1, blen - 1, by omega, by omega, rfl⟩
    have hsf : score add a alen b blen (add (a 0) (b 0)) = alen * blen :=
      score_top hm1 hm2 hA hB
    have hsg : score add a alen b blen (add (a (alen - 1)) (b (blen - 1))) = 1 :=
      score_bot hm1 hm2 hA hB halen hblen
    have hcle : score add a alen b blen (add (a i) (b j)) ≤ alen * blen :=
      score_le_mul add a alen b blen _
    have hcpos : 0 < score add a alen b blen (add (a i) (b j)) :=
      score_pos add a alen b blen hi hj
    obtain ⟨f2, g2, hloop, hf2lo, hg2up, hor⟩ :=
      loopModel_post hm2 hB halen
        ⟨i, j, hi, hj, hlo, hup⟩ (alen * blen)
        (add (a 0) (b 0)) (add (a (alen - 1)) (b (blen - 1)))
        hfc hgc (by rw [hsf]; push_cast; omega) (by rw [hsg]; omega)
        (by rw [hsf, hsg]; have : 0 < alen * blen := Nat.mul_pos halen hblen; omega)
    rw [hloop]
    dsimp only
    rcases final_select_in_range f2 g2 hf2lo hg2up hor with ⟨heq, hx1, hx2⟩ | ⟨heq, hx1, hx2⟩
    · exact ⟨f2, (score add a alen b blen f2 : ℤ), by rw [heq], hx1, hx2, rfl⟩
    · exact ⟨g2, (score add a alen b blen g2 : ℤ), by rw [heq], hx1, hx2, rfl⟩

/-- C3.  Termination: on valid inputs the routine always produces a result;
the fuel alen * blen, which bounds the initial score bracket, is never
exhausted because each productive loop iteration strictly shrinks the
bracket between the F score and the G score. -/
theorem search_monomials_terminates
    (add : M → M → M) (a : ℕ → M) (alen : ℕ) (b : ℕ → M) (blen : ℕ)
    (lower upper : ℤ)
    (hm1 : ∀ x y z : M, x < y → add x z < add y z)
    (hm2 : ∀ x y z : M, x < y → add z x < add z y)
    (hA : ∀ i j, i < j → j < alen → a j < a i)
    (hB : ∀ i j, i < j → j < blen → b j < b i)
    (halen : 0 < alen) (hblen : 0 < blen) (hlu : lower ≤ upper) :
    (fmpz_mpoly_search_monomials add a alen b blen lower upper).isSome := by
  unfold fmpz_mpoly_search_monomials
  by_cases hone : (alen : ℤ) * (blen : ℤ) = 1
  · rw [if_pos hone]; simp
  · rw [if_neg hone]
    have hfc : IsCell add a alen b blen (add (a 0) (b 0)) := ⟨0, 0, halen, hblen, rfl⟩
    have hgc : IsCell add a alen b blen (add (a (alen - 1)) (b (blen - 1))) :=
      ⟨alen - 1, blen - 1, by omega, by omega, rfl⟩
    have hsf : score add a alen b blen (add (a 0) (b 0)) = alen * blen :=
      score_top hm1 hm2 hA hB
    have hsg : score add a alen b blen (add (a (alen - 1)) (b (blen - 1))) = 1 :=
      score_bot hm1 hm2 hA hB halen hblen
    have hsome := loopModel_isSome hm2 hB halen hlu (alen * blen)
      (add (a 0) (b 0)) (add (a (alen - 1)) (b (blen - 1))) hfc hgc
      (by rw [hsf, hsg]; have : 0 < alen * blen := Nat.mul_pos halen hblen; omega)
    obtain ⟨⟨f2, g2⟩, hloop⟩ := Option.isSome_iff_exists.mp hsome
    rw [hloop]
    simp

end MainTheorems

section DegenerateTheorems

variable {M : Type} [LinearOrder M]

/-- C7.  Degenerate equality: on valid inputs whose extreme cross products
coincide (which forces alen = blen = 1 for strictly descending inputs),
the routine takes the early exit before the main loop and returns that
monomial with score alen * blen. -/
theorem search_monomials_degenerate_equal
    (add : M → M → M) (a : ℕ → M) (alen : ℕ) (b : ℕ → M) (blen : ℕ)
    (lower upper : ℤ)
    (hm1 : ∀ x y z : M, x < y → add x z < add y z)
    (hm2 : ∀ x y z : M, x < y → add z x < add z y)
    (hA : ∀ i j, i < j → j < alen → a j < a i)
    (hB : ∀ i j, i < j → j < blen → b j < b i)
    (halen : 0 < alen) (hblen : 0 < blen) (hlu : lower ≤ upper)
    (heq : add (a 0) (b 0) = add (a (alen - 1)) (b (blen - 1))) :
    fmpz_mpoly_search_monomials add a alen b blen lower upper =
      some (add (a 0) (b 0), (alen : ℤ) * (blen : ℤ)) := by
  have hone : alen = 1 ∧ blen = 1 := by
    by_contra hcon
    have hne : ¬(0 = alen - 1 ∧ 0 = blen - 1) := by omega
    have := bot_lt_cell hm1 hm2 hA hB halen hblen halen hblen hne
    rw [heq] at this
    exact lt_irrefl _ this
  obtain ⟨ha1, hb1⟩ := hone
  unfold fmpz_mpoly_search_monomials
  rw [if_pos (by rw [ha1, hb1]; norm_num)]

/-- C10.  When upper is at least alen * blen, the loop guard fails at entry
(the initial F score is alen * blen), the loop body never runs, and the
selection returns the F candidate a[0] + b[0] with score alen * blen. -/
theorem search_monomials_upper_large
    (add : M → M → M) (a : ℕ → M) (alen : ℕ) (b : ℕ → M) (blen : ℕ)
    (lower upper : ℤ)
    (hm1 : ∀ x y z : M, x < y → add x z < add y z)
    (hm2 : ∀ x y z : M, x < y → add z x < add z y)
    (hA : ∀ i j, i < j → j < alen → a j < a i)
    (hB : ∀ i j, i < j → j < blen → b j < b i)
    (halen : 0 < alen) (hblen : 0 < blen) (hlu : lower ≤ upper)
    (hup : (alen : ℤ) * (blen : ℤ) ≤ upper) :
    fmpz_mpoly_search_monomials add a alen b blen lower upper =
      some (add (a 0) (b 0), (alen : ℤ) * (blen : ℤ)) := by
  unfold fmpz_mpoly_search_monomials
  by_cases hone : (alen : ℤ) * (blen : ℤ) = 1
  · rw [if_pos hone]
  · rw [if_neg hone]
    have hsf : score add a alen b blen (add (a 0) (b 0)) = alen * blen :=
      score_top hm1 hm2 hA hB
    have hsg : score add a alen b blen (add (a (alen - 1)) (b (blen - 1))) = 1 :=
      score_bot hm1 hm2 hA hB halen hblen
    have hmul : 0 < alen * blen := Nat.mul_pos halen hblen
    have hmul2 : ((alen * blen : ℕ) : ℤ) = (alen : ℤ) * (blen : ℤ) := by push_cast; rfl
    cases hfu : alen * blen with
    | zero => omega
    | succ n =>
      have hguard : ¬((score add a alen b blen (add (a (alen - 1)) (b (blen - 1))) : ℤ) < lower ∧
          upper < (score add a alen b blen (add (a 0) (b 0)) : ℤ)) := by
        rintro ⟨-, hg2⟩
        rw [hsf] at hg2
        omega
      simp only [loopModel]
      rw [if_neg hguard]
      dsimp only
      have hfs2 : (score add a alen b blen (add (a 0) (b 0)) : ℤ) = (alen : ℤ) * (blen : ℤ) := by
        rw [hsf]; omega
      have hgs2 : (score add a alen b blen (add (a (alen - 1)) (b (blen - 1))) : ℤ) = 1 := by
        rw [hsg]; omega
      unfold finalSelect
      rw [hfs2, hgs2]
      have hmgt : (1 : ℤ) < (alen : ℤ) * (blen : ℤ) := by omega
      by_cases hr1 : (alen : ℤ) * (blen : ℤ) ≤ lower
      · rw [if_pos hr1]
      · rw [if_neg hr1, if_neg (by omega : ¬(1 : ℤ) ≥ upper), if_pos hup]

end DegenerateTheorems

/-- C2 counterexample.  At fscore = 6, gscore = 2, lower = upper = 4 the two
distances tie (6 - 4 = 4 - 2), and the final selection returns the G
candidate, not the F candidate the claim demands. -/
theorem final_select_tie_returns_g :
    finalSelect 6 2 4 4 (10 : ℤ) (0 : ℤ) = ((0 : ℤ), (2 : ℤ)) ∧
    (6 : ℤ) - 4 = 4 - 2 ∧
    finalSelect 6 2 4 4 (10 : ℤ) (0 : ℤ) ≠ ((10 : ℤ), (6 : ℤ)) := by
  refine ⟨by decide, by decide, by decide⟩

/-- C2 amended.  The five-rule selection of lines 196-221, with the tie in
rule 5 resolved in favour of G: rule 5 keeps F only when its distance
fscore - upper is strictly smaller than lower - gscore. -/
theorem final_select_policy {M : Type} (fs gs lo up : ℤ) (fe ge : M) :
    (fs ≤ lo → finalSelect fs gs lo up fe ge = (fe, fs)) ∧
    (¬fs ≤ lo → up ≤ gs → finalSelect fs gs lo up fe ge = (ge, gs)) ∧
    (¬fs ≤ lo → ¬up ≤ gs → fs ≤ up → finalSelect fs gs lo up fe ge = (fe, fs)) ∧
    (¬fs ≤ lo → ¬up ≤ gs → ¬fs ≤ up → lo ≤ gs →
      finalSelect fs gs lo up fe ge = (ge, gs)) ∧
    (¬fs ≤ lo → ¬up ≤ gs → ¬fs ≤ up → ¬lo ≤ gs → fs - up < lo - gs →
      finalSelect fs gs lo up fe ge = (fe, fs)) ∧
    (¬fs ≤ lo → ¬up ≤ gs → ¬fs ≤ up → ¬lo ≤ gs → lo - gs ≤ fs - up →
      finalSelect fs gs lo up fe ge = (ge, gs)) := by
  unfold finalSelect
  refine ⟨?_, ?_, ?_, ?_, ?_, ?_⟩ <;> intros <;> split_ifs <;> first | rfl | omega

theorem final_select_policy_witness :
    finalSelect (10 : ℤ) 0 20 30 (5 : ℤ) (7 : ℤ) = ((5 : ℤ), (10 : ℤ)) :=
  (final_select_policy (10 : ℤ) 0 20 30 (5 : ℤ) (7 : ℤ)).1 (by decide)

/-- C4.  The pivot row scan of lines 88-98 loses the winning row: on the
frontier state of the first iteration for A = [5, 3, 1], B = [4, 2]
(find = [0, 0, 0], gind = [2, 2, 1]) it finds the maximal gap 2 but
reports row index -1, although the claim requires the first maximal row,
namely 0. -/
theorem pivot_row_scan_loses_row :
    pivotRowScanLiteral (fun _ => 0) (fun i => if i = 2 then 1 else 2) 3 = (2, -1) ∧
    ((-1 : ℤ) ≠ (0 : ℤ)) := by
  refine ⟨by decide, by decide⟩

/-- C5 counterexample.  On a state where rows 0 and 1 both have a frontier
gap and both cells differ from the F monomial, the literal scan of
lines 105-124 adopts row 1, the last such row, not row 0, the first,
which the claim demands. -/
theorem scan_gap_one_not_first :
    scanGapOne (fun x y : ℤ => x + y) exA 2 exB 100 (fun _ => 0) (fun _ => 1) = some 1 ∧
    ((0 : ℕ) < 1 ∧ exA 0 + exB 0 ≠ 100) ∧
    some (1 : ℕ) ≠ some (0 : ℕ) := by
  refine ⟨by decide, ⟨by decide, by decide⟩, by decide⟩

/-- C5 amended.  The gap-one scan adopts the last (highest-index) row whose
gap is positive and whose cell a[i] + b[find[i]] differs from the F
monomial, paired with column find[i]; when no row differs the scan yields
none and the refinement loop breaks. -/
theorem scan_gap_one_adopts_last {M : Type} [LinearOrder M] (add : M → M → M)
    (a : ℕ → M) (alen : ℕ) (b : ℕ → M) (fexp : M) (find gind : ℕ → ℕ) :
    (∀ r, scanGapOne add a alen b fexp find gind = some r ↔
      (r < alen ∧ (find r < gind r ∧ add (a r) (b (find r)) ≠ fexp) ∧
       ∀ s, r < s → s < alen →
         ¬(find s < gind s ∧ add (a s) (b (find s)) ≠ fexp))) ∧
    (scanGapOne add a alen b fexp find gind = none ↔
      ∀ s, s < alen → ¬(find s < gind s ∧ add (a s) (b (find s)) ≠ fexp)) :=
  ⟨fun r => scanGapOne_some_iff add a alen b fexp find gind r,
   scanGapOne_none_iff add a alen b fexp find gind⟩

theorem scan_gap_one_adopts_last_witness :
    scanGapOne (fun x y : ℤ => x + y) exA 3 exB 100 (fun _ => 0) (fun i => if i = 2 then 0 else 1)
      = some 1 :=
  ((scan_gap_one_adopts_last (fun x y : ℤ => x + y) exA 3 exB 100 (fun _ => 0)
      (fun i => if i = 2 then 0 else 1)).1 1).mpr
    (by refine ⟨by decide, ⟨by decide, by decide⟩, ?_⟩
        intro s hs1 hs2
        interval_cases s <;> decide)

/-- C6.  The initialisation clobbers its own state: for alen = blen = 2,
A = [5, 3], B = [4, 2] the literal code of lines 53-75 leaves F's frontier
array as [2, 1] (it holds G's intended values, written into find by the
loop at lines 68-70) instead of the claimed all-zero array, and leaves the
G monomial as the zeroed word block 0 instead of the claimed
A[1] + B[1] = 5 (the loop at lines 66-67 erases what line 65 computed);
gind is never written at all. -/
theorem init_literal_clobbers_state :
    initLiteral (fun x y : ℤ => x + y) 0 exA 2 exB 2 = (4, 9, [2, 1], 1, 0) ∧
    ([2, 1] : List ℕ) ≠ [0, 0] ∧
    (0 : ℤ) ≠ exA 1 + exB 1 := by
  refine ⟨by decide, by decide, by decide⟩

/-- C9 counterexample.  On A = [5, 3, 1], B = [4, 2], lower = upper = 3 the
routine does not return score 6 with the minimum monomial 3: score 6 is
the score of the maximum monomial 9 and lies outside [3, 3]. -/
theorem search_concrete_not_six :
    fmpz_mpoly_search_monomials (fun x y : ℤ => x + y) exA 3 exB 2 3 3 ≠ some (3, 6) := by
  decide

/-- C9 amended.  On A = [5, 3, 1], B = [4, 2], lower = upper = 3 the routine
returns the monomial 3 + 2 = 5 with its score 3, which lies in the
requested range (the achievable scores are 1, 3, 5, 6). -/
theorem search_concrete_returns_five :
    fmpz_mpoly_search_monomials (fun x y : ℤ => x + y) exA 3 exB 2 3 3 = some (5, 3) := by
  decide

theorem search_monomials_range_respecting_witness :
    ∃ eexp escore,
      fmpz_mpoly_search_monomials (fun x y : ℤ => x + y) exA 3 exB 2 3 3 =
        some (eexp, escore) ∧
      3 ≤ escore ∧ escore ≤ 3 ∧
      escore = (score (fun x y : ℤ => x + y) exA 3 exB 2 eexp : ℤ) :=
  search_monomials_range_respecting (fun x y : ℤ => x + y) exA 3 exB 2 3 3
    (fun x y z h => add_lt_add_right h z) (fun x y z h => add_lt_add_left h z)
    (by intro i j hij hj; interval_cases j <;> interval_cases i <;> decide)
    (by intro i j hij hj; interval_cases j <;> interval_cases i <;> decide)
    (by decide) (by decide) (by decide)
    ⟨1, 1, by decide, by decide, by decide, by decide⟩

theorem search_monomials_terminates_witness :
    (fmpz_mpoly_search_monomials (fun x y : ℤ => x + y) exA 3 exB 2 3 3).isSome :=
  search_monomials_terminates (fun x y : ℤ => x + y) exA 3 exB 2 3 3
    (fun x y z h => add_lt_add_right h z) (fun x y z h => add_lt_add_left h z)
    (by intro i j hij hj; interval_cases j <;> interval_cases i <;> decide)
    (by intro i j hij hj; interval_cases j <;> interval_cases i <;> decide)
    (by decide) (by decide) (by decide)

theorem search_monomials_degenerate_equal_witness :
    fmpz_mpoly_search_monomials (fun x y : ℤ => x + y) exA1 1 exB1 1 0 0 = some (9, 1) := by
  have h := search_monomials_degenerate_equal (fun x y : ℤ => x + y) exA1 1 exB1 1 0 0
    (fun x y z h => add_lt_add_right h z) (fun x y z h => add_lt_add_left h z)
    (by intro i j hij hj; omega)
    (by intro i j hij hj; omega)
    (by decide) (by decide) (by decide) rfl
  rw [h]
  decide

theorem search_monomials_upper_large_witness :
    fmpz_mpoly_search_monomials (fun x y : ℤ => x + y) exA 3 exB 2 1 10 = some (9, 6) := by
  have h := search_monomials_upper_large (fun x y : ℤ => x + y) exA 3 exB 2 1 10
    (fun x y z h => add_lt_add_right h z) (fun x y z h => add_lt_add_left h z)
    (by intro i j hij hj; interval_cases j <;> interval_cases i <;> decide)
    (by intro i j hij hj; interval_cases j <;> interval_cases i <;> decide)
    (by decide) (by decide) (by decide) (by decide)
  rw [h]
  decide

end SearchMonomials
